import Mathlib

/-
Verification of the data-science lesson notebooks in this repository.

Each Python notebook is a linear script; its helper functions and the
vectorized formulas it evaluates are embedded below as Lean definitions,
with pandas/numpy semantics made explicit:

* `get_bigrams` (10.1): `zip(words[:-1], words[1:])`.
* `Counter` (10.1): the standard-library bag-of-words counter, modelled as
  the left fold over the word list that increments a count map.
* `df`, `idf`, `tf_idf` (10.2, from-scratch TF-IDF): document frequencies
  `(tf > 0).sum(axis=0)`, `np.log(len(tf) / df)`, and the broadcast
  product `tf * idf`.
* `vocab`, `vecDf`, `smoothIdf`, `tfidfRow`, `b_len` (10.2): the corpus
  TF-IDF matrix produced by the fitted vectorizer (documents are taken
  after tokenization, as lists of words; the vectorizer's smoothed
  inverse document frequency is `log((1 + n) / (1 + df)) + 1`).
* `dot`, `vlen`, `cosSim` (10.2): the cosine-similarity arithmetic
  `a.multiply(b).sum()`, `np.sqrt(a.multiply(a).sum())`, and their ratio.
* `tokenize`, `predict_spam` (10.2, Exercise 4): the placeholder that
  computes a TF-IDF vector for the new text and then unconditionally
  raises `NotImplementedError` (modelled with `Except`).
* `sqDist`, `inds_sorted`, `i_nearest`, `get_30NN_prediction` (5.1): the
  30-nearest-neighbors helper, which sorts the squared Euclidean
  distances `((X_train - x_new) ** 2).sum(axis=1)` and averages the
  labels of the first 30 indices.
* `get_val_error` (5.4): the validation-error pipeline; its body
  overwrites its `X_train`/`X_val` parameters with the transforms of the
  module-level `X_train_dict`/`X_val_dict`, which the embedding makes
  explicit by passing those globals as extra arguments.
* `dropIndex` (5.4): `housing.drop(train.index)`, which removes from the
  table every row whose index label occurs among `train`'s labels.
-/

/-! ## 10.1 Bag of Words and N-Grams -/

/-- Embeds `get_bigrams` from "10.1 Bag of Words and N-Grams.py":
`return zip(words[:-1], words[1:])`.  Python `words[:-1]` is `dropLast`
and `words[1:]` is `tail`. -/
def get_bigrams {α : Type} (words : List α) : List (α × α) :=
  List.zip words.dropLast words.tail

/-- The list of consecutive pairs of a word list, written as a direct
recursion.  This is the closed form the spec describes for the bigram
generator; it is compared with `get_bigrams` in the theorems below. -/
def consecPairs {α : Type} : List α → List (α × α)
  | [] => []
  | [_] => []
  | a :: b :: rest => (a, b) :: consecPairs (b :: rest)

/-- One step of Python's `collections.Counter` built from a list: increment
the count of the next element. -/
def counterStep {α : Type} [DecidableEq α] (m : α → ℕ) (w : α) : α → ℕ :=
  Function.update m w (m w + 1)

/-- Embeds `Counter(words)` from "10.1 Bag of Words and N-Grams.py": the
bag-of-words map, built by iterating over the list from the left and
incrementing the count of each element, starting from the empty bag. -/
def Counter {α : Type} [DecidableEq α] (l : List α) : α → ℕ :=
  l.foldl counterStep (fun _ => 0)

/-! ## 10.2 The Vector Space Model: from-scratch TF-IDF

The term-frequency matrix `tf` has `N` document rows and `M` term
columns; entries are the (nonnegative) word counts. -/

/-- Embeds `df = (tf > 0).sum(axis=0)`: the number of documents in which
term `t` has a strictly positive count. -/
def df {N M : ℕ} (tf : Fin N → Fin M → ℚ) (t : Fin M) : ℕ :=
  (Finset.univ.filter fun d => 0 < tf d t).card

/-- Embeds `idf = np.log(len(tf) / df)`: `len(tf)` is the number `N` of
document rows, the quotient is taken before the logarithm. -/
noncomputable def idf {N M : ℕ} (tf : Fin N → Fin M → ℚ) (t : Fin M) : ℝ :=
  Real.log (((N : ℚ) / (df tf t : ℚ) : ℚ) : ℝ)

/-- Embeds `tf_idf = tf * idf`: the broadcast product multiplies each row
of the term-frequency matrix entrywise by the IDF vector. -/
noncomputable def tf_idf {N M : ℕ} (tf : Fin N → Fin M → ℚ) (d : Fin N) (t : Fin M) : ℝ :=
  (tf d t : ℝ) * idf tf t

/-! ## 10.2 The Vector Space Model: corpus TF-IDF rows and cosine similarity

The corpus is a family `docs : Fin N → List String` of tokenized
documents (each document is the list of words that remains after the
notebook's lowercasing/punctuation-stripping step).  The fitted
vectorizer assigns a column to every word that occurs somewhere in the
corpus and, with its default smoothing, the inverse document frequency
`log((1 + N) / (1 + df)) + 1`. -/

/-- The vocabulary the vectorizer learns from the corpus: every word that
occurs in at least one document. -/
def vocab {N : ℕ} (docs : Fin N → List String) : Finset String :=
  Finset.univ.biUnion fun d => (docs d).toFinset

/-- Document frequency of word `w` over the corpus: the number of
documents containing `w`. -/
def vecDf {N : ℕ} (docs : Fin N → List String) (w : String) : ℕ :=
  (Finset.univ.filter fun d => w ∈ docs d).card

/-- The vectorizer's smoothed inverse document frequency
`log((1 + N) / (1 + df(w))) + 1`. -/
noncomputable def smoothIdf {N : ℕ} (docs : Fin N → List String) (w : String) : ℝ :=
  Real.log ((1 + N : ℝ) / (1 + vecDf docs w : ℝ)) + 1

/-- Row `d` of the (unnormalized) corpus TF-IDF matrix `tf_idf_sparse`:
the count of `w` in document `d` times the smoothed IDF of `w`. -/
noncomputable def tfidfRow {N : ℕ} (docs : Fin N → List String) (d : Fin N) (w : String) : ℝ :=
  ((docs d).count w : ℝ) * smoothIdf docs w

/-- Embeds `b_len = np.sqrt(B.multiply(B).sum(axis=1))` at row `d`: the
Euclidean norm of document `d`'s TF-IDF row. -/
noncomputable def b_len {N : ℕ} (docs : Fin N → List String) (d : Fin N) : ℝ :=
  Real.sqrt (∑ w ∈ vocab docs, (tfidfRow docs d w) ^ 2)

/-- Embeds `dot = a.multiply(b).sum()` for two generic vectors: the sum of
the entrywise products. -/
def dot {n : ℕ} (a b : Fin n → ℝ) : ℝ :=
  ∑ j, a j * b j

/-- Embeds `a_len = np.sqrt(a.multiply(a).sum())` for a generic vector:
its Euclidean norm. -/
noncomputable def vlen {n : ℕ} (a : Fin n → ℝ) : ℝ :=
  Real.sqrt (∑ j, a j ^ 2)

/-- Embeds the cosine similarity `dot / (a_len * b_len)` of two vectors. -/
noncomputable def cosSim {n : ℕ} (a b : Fin n → ℝ) : ℝ :=
  dot a b / (vlen a * vlen b)

/-! ## 10.2 Exercise 4: the `predict_spam` placeholder -/

/-- The Python exception raised by the exercise placeholder. -/
inductive PyError : Type
  | notImplementedError : PyError
deriving DecidableEq

/-- The vectorizer's tokenization of a raw text: lowercase it, replace
every non-letter character by a space, split on spaces and drop the
empty fragments. -/
def tokenize (s : String) : List String :=
  (((s.toLower).map fun c => if c.isAlpha then c else ' ').splitOn " ").filter
    fun w => w ≠ ""

/-- Embeds `predict_spam(new_text)` from "10.2 The Vector Space Model.py",
Exercise 4: it computes the TF-IDF vector `x_new` of the new text under
the vectorizer fitted on the corpus, then unconditionally executes
`raise NotImplementedError`.  The raise is modelled with `Except`: the
function returns `Except.error` and never an `Except.ok` label. -/
noncomputable def predict_spam {N : ℕ} (docs : Fin N → List String) (new_text : String) :
    Except PyError String :=
  let x_new : String → ℝ := fun w => ((tokenize new_text).count w : ℝ) * smoothIdf docs w
  Except.error PyError.notImplementedError

/-! ## 5.1 K-Nearest Neighbors for Regression

The training data is `X_train : Fin n → Fin d → ℚ` (rows of features)
with labels `y_train : Fin n → ℚ`; the query point is
`x_new : Fin d → ℚ`. -/

/-- Embeds `dists = ((X_train - x_new) ** 2).sum(axis=1)` inside
`get_30NN_prediction`: the squared Euclidean distance from row `i` of the
training data to the query point. -/
def sqDist {n d : ℕ} (X_train : Fin n → Fin d → ℚ) (x_new : Fin d → ℚ) (i : Fin n) : ℚ :=
  ∑ j, (X_train i j - x_new j) ^ 2

/-- The comparison used to sort training indices by their distance to the
query point. -/
def distLe {n d : ℕ} (X_train : Fin n → Fin d → ℚ) (x_new : Fin d → ℚ) (i j : Fin n) : Bool :=
  decide (sqDist X_train x_new i ≤ sqDist X_train x_new j)

/-- Embeds `dists.sort_values().index`: the list of all training indices,
ordered by increasing squared distance to the query point. -/
def inds_sorted {n d : ℕ} (X_train : Fin n → Fin d → ℚ) (x_new : Fin d → ℚ) : List (Fin n) :=
  (List.finRange n).mergeSort (distLe X_train x_new)

/-- Embeds `dists.sort_values().index[:30]`: the first 30 indices of the
sorted distance list. -/
def i_nearest {n d : ℕ} (X_train : Fin n → Fin d → ℚ) (x_new : Fin d → ℚ) : List (Fin n) :=
  (inds_sorted X_train x_new).take 30

/-- Embeds `get_30NN_prediction` from "5.1 K-Nearest Neighbors for
Regression.py": `y_train.loc[inds_sorted].mean()`, the mean of the labels
at the 30 nearest indices. -/
def get_30NN_prediction {n d : ℕ} (X_train : Fin n → Fin d → ℚ) (y_train : Fin n → ℚ)
    (x_new : Fin d → ℚ) : ℚ :=
  ((i_nearest X_train x_new).map y_train).sum / ((i_nearest X_train x_new).length : ℚ)

/-- The Euclidean distance the lesson's earlier cell computes with
`np.sqrt(...)`: the square root of the squared distance. -/
noncomputable def euclDist {n d : ℕ} (X_train : Fin n → Fin d → ℚ) (x_new : Fin d → ℚ)
    (i : Fin n) : ℝ :=
  Real.sqrt ((sqDist X_train x_new i : ℝ))

/-! ## 5.4 Validation and Test Errors

`get_val_error` runs the full pipeline: dummy-encode with a vectorizer
fitted on the training records, standardize with a scaler fitted on the
training matrix, fit a 10-nearest-neighbors regressor, and return the
validation RMSE.  Rows are real vectors `Fin d → ℝ`; the vectorizer step
applied to the fixed module-level record lists yields the fixed matrices
`X_train_dict` and `X_val_dict` below, which the embedding passes
explicitly because the Python body reads them as globals. -/

/-- Mean of column `j` over the training rows (what `StandardScaler.fit`
records). -/
noncomputable def colMean {d : ℕ} (rows : List (Fin d → ℝ)) (j : Fin d) : ℝ :=
  (rows.map fun r => r j).sum / (rows.length : ℝ)

/-- Population standard deviation of column `j` over the training rows
(what `StandardScaler.fit` records). -/
noncomputable def colStd {d : ℕ} (rows : List (Fin d → ℝ)) (j : Fin d) : ℝ :=
  Real.sqrt ((rows.map fun r => (r j - colMean rows j) ^ 2).sum / (rows.length : ℝ))

/-- `StandardScaler.transform` with the statistics fitted on `rows`:
center and rescale each coordinate. -/
noncomputable def standardize {d : ℕ} (rows : List (Fin d → ℝ)) (r : Fin d → ℝ) :
    Fin d → ℝ :=
  fun j => (r j - colMean rows j) / colStd rows j

/-- Squared Euclidean distance between two real feature rows. -/
def sqDistR {d : ℕ} (a b : Fin d → ℝ) : ℝ :=
  ∑ j, (a j - b j) ^ 2

/-- `KNeighborsRegressor(n_neighbors=k).fit(X, y).predict([x])`: average
the labels of the `k` training rows closest to `x` (ties resolved by
training order, as the stable sort does). -/
noncomputable def knnPredict {d : ℕ} (k : ℕ) (X : List (Fin d → ℝ)) (y : List ℝ)
    (x : Fin d → ℝ) : ℝ :=
  let sorted := (X.zip y).mergeSort fun p q => decide (sqDistR p.1 x ≤ sqDistR q.1 x)
  let nearest := sorted.take k
  (nearest.map Prod.snd).sum / (nearest.length : ℝ)

/-- `np.sqrt(((y_val - y_val_pred) ** 2).mean())`: the root-mean-square
error between labels and predictions. -/
noncomputable def rmse (yTrue yPred : List ℝ) : ℝ :=
  Real.sqrt ((((yTrue.zip yPred).map fun p => (p.1 - p.2) ^ 2).sum) / (yTrue.length : ℝ))

/-- Embeds `get_val_error(X_train, y_train, X_val, y_val)` from "5.4
Validation and Test Errors.py".  The first two extra arguments are the
module-level globals `X_train_dict` and `X_val_dict` (already passed
through the vectorizer fitted on the training records): the body's first
two statements are `X_train = vec.transform(X_train_dict)` and
`X_val = vec.transform(X_val_dict)`, which overwrite the `X_train` and
`X_val` parameters with those globals, exactly as the Python does. -/
noncomputable def get_val_error {d : ℕ} (X_train_dict X_val_dict : List (Fin d → ℝ))
    (X_train : List (Fin d → ℝ)) (y_train : List ℝ)
    (X_val : List (Fin d → ℝ)) (y_val : List ℝ) : ℝ :=
  let X_train := X_train_dict
  let X_val := X_val_dict
  let X_train_sc := X_train.map (standardize X_train)
  let X_val_sc := X_val.map (standardize X_train)
  let y_val_pred := X_val_sc.map (knnPredict 10 X_train_sc y_train)
  rmse y_val y_val_pred

/-- Embeds `val = housing.drop(train.index)`: keep exactly the rows of
`table` whose index label does not occur among `train`'s index labels.  A
table is a list of (index label, row) pairs. -/
def dropIndex {L R : Type} [DecidableEq L] (table train : List (L × R)) : List (L × R) :=
  table.filter fun r => !decide (r.1 ∈ train.map Prod.fst)

/-! ## Theorems -/

/-- C5: for every list of words of length `n`, `get_bigrams` returns
exactly the sequence of `n - 1` consecutive pairs `(words[i], words[i+1])`
for `i = 0 .. n-2`, in that order; for every list with fewer than two
words it returns the empty sequence. -/
theorem get_bigrams_spec {α : Type} (l : List α) :
    (get_bigrams l).length = l.length - 1 ∧
    (∀ (i : ℕ) (h : i + 1 < l.length), (get_bigrams l)[i]? = some (l[i], l[i + 1])) ∧
    (l.length < 2 → get_bigrams l = []) := by
  have hlen : (get_bigrams l).length = l.length - 1 := by
    simp [get_bigrams]
  refine ⟨hlen, ?_, ?_⟩
  · intro i h
    have hi : i < (get_bigrams l).length := by omega
    rw [List.getElem?_eq_getElem hi]
    unfold get_bigrams at hi ⊢
    simp [List.getElem_zip, List.getElem_dropLast, List.getElem_tail]
  · intro h2
    have h0 : (get_bigrams l).length = 0 := by omega
    exact List.length_eq_zero.mp h0

/-- Witness for `get_bigrams_spec` at the word list `["the","dog","bit"]`
and index `0`. -/
theorem get_bigrams_spec_witness :
    0 + 1 < (["the", "dog", "bit"] : List String).length ∧
    (get_bigrams (["the", "dog", "bit"] : List String))[0]? =
      some ((["the", "dog", "bit"] : List String)[0],
        (["the", "dog", "bit"] : List String)[0 + 1]) :=
  ⟨by decide, (get_bigrams_spec (["the", "dog", "bit"] : List String)).2.1 0 (by decide)⟩

/-- C8: for every corpus and every input string, the exercise placeholder
`predict_spam` computes the TF-IDF vector of the input and then raises
`NotImplementedError`; it never returns a value. -/
theorem predict_spam_raises {N : ℕ} (docs : Fin N → List String) (new_text : String) :
    predict_spam docs new_text = Except.error PyError.notImplementedError ∧
    ∀ v : String, predict_spam docs new_text ≠ Except.ok v := by
  refine ⟨rfl, ?_⟩
  intro v h
  simp [predict_spam] at h

/-- Helper for C3: the from-scratch TF-IDF entry written with the casts
pushed inward. -/
theorem tf_idf_entry {N M : ℕ} (tf : Fin N → Fin M → ℚ) (d : Fin N) (t : Fin M) :
    tf_idf tf d t = (tf d t : ℝ) * Real.log ((N : ℝ) / (df tf t : ℝ)) := by
  unfold tf_idf idf
  push_cast
  rfl

/-- C3: every entry of the from-scratch `tf_idf` matrix equals
`tf(d, t) * log(N / df(t))`, where `df(t)` counts the documents in which
term `t` has a strictly positive count; in particular a term with count 0
in a document gets TF-IDF weight 0 there, provided `df(t) > 0`. -/
theorem tf_idf_spec {N M : ℕ} (tf : Fin N → Fin M → ℚ) (d : Fin N) (t : Fin M)
    (h : 0 < df tf t) :
    tf_idf tf d t = (tf d t : ℝ) * Real.log ((N : ℝ) / (df tf t : ℝ)) ∧
    (tf d t = 0 → tf_idf tf d t = 0) := by
  refine ⟨tf_idf_entry tf d t, ?_⟩
  intro h0
  simp [tf_idf, h0]

/-- Witness for `tf_idf_spec` on a concrete 2×2 term-frequency matrix. -/
theorem tf_idf_spec_witness :
    0 < df (![![(1 : ℚ), 0], ![2, 3]]) 0 ∧
    (tf_idf (![![(1 : ℚ), 0], ![2, 3]]) 0 0 =
        ((![![(1 : ℚ), 0], ![2, 3]]) 0 0 : ℝ) *
          Real.log (((2 : ℕ) : ℝ) / (df (![![(1 : ℚ), 0], ![2, 3]]) 0 : ℝ)) ∧
      ((![![(1 : ℚ), 0], ![2, 3]]) 0 0 = 0 → tf_idf (![![(1 : ℚ), 0], ![2, 3]]) 0 0 = 0)) :=
  ⟨by decide, tf_idf_spec (![![(1 : ℚ), 0], ![2, 3]]) 0 0 (by decide)⟩

/-- Helper for C10: folding `counterStep` over a list adds the occurrence
count of each element to the initial map. -/
theorem counter_foldl_count {α : Type} [DecidableEq α] (l : List α) (m : α → ℕ) (w : α) :
    l.foldl counterStep m w = m w + l.count w := by
  induction l generalizing m with
  | nil => simp
  | cons a t ih =>
    rw [List.foldl_cons, ih]
    simp only [counterStep, Function.update_apply, List.count_cons]
    rcases eq_or_ne w a with hw | hw
    · subst hw; simp; omega
    · simp [hw, Ne.symm hw]

/-- C10: the bag-of-words `Counter` maps each word to its number of
occurrences, the counts over the distinct words sum to the list's length,
and the bag is invariant under permutation of the list. -/
theorem Counter_spec {α : Type} [DecidableEq α] (l₁ l₂ : List α) (hp : l₁.Perm l₂) :
    (∀ w, Counter l₁ w = l₁.count w) ∧
    (∑ w ∈ l₁.toFinset, Counter l₁ w = l₁.length) ∧
    Counter l₁ = Counter l₂ := by
  have hc : ∀ (l : List α) (w : α), Counter l w = l.count w := fun l w => by
    unfold Counter
    rw [counter_foldl_count]
    simp
  refine ⟨hc l₁, ?_, ?_⟩
  · calc ∑ w ∈ l₁.toFinset, Counter l₁ w
        = ∑ w ∈ l₁.toFinset, l₁.count w :=
          Finset.sum_congr rfl fun w _ => hc l₁ w
      _ = l₁.length := by
          simp
  · funext w
    rw [hc l₁ w, hc l₂ w, hp.count_eq w]

/-- Witness for `Counter_spec` on the lesson's own example list and a
rearrangement of it. -/
theorem Counter_spec_witness :
    (["I", "am", "Sam", "Sam", "I", "am"] : List String).Perm
        ["Sam", "I", "am", "I", "am", "Sam"] ∧
    Counter (["I", "am", "Sam", "Sam", "I", "am"] : List String) =
      Counter (["Sam", "I", "am", "I", "am", "Sam"] : List String) := by
  have hp : (["I", "am", "Sam", "Sam", "I", "am"] : List String).Perm
      ["Sam", "I", "am", "I", "am", "Sam"] := by decide
  exact ⟨hp, (Counter_spec _ _ hp).2.2⟩

/-- Helper for C4: the vectorizer's smoothed inverse document frequency is
strictly positive for every word. -/
theorem smoothIdf_pos {N : ℕ} (docs : Fin N → List String) (w : String) :
    0 < smoothIdf docs w := by
  unfold smoothIdf
  have hdfN : vecDf docs w ≤ N := by
    unfold vecDf
    simpa using Finset.card_filter_le (Finset.univ : Finset (Fin N)) _
  have hdf : (vecDf docs w : ℝ) ≤ (N : ℝ) := Nat.cast_le.mpr hdfN
  have hden : (0 : ℝ) < 1 + (vecDf docs w : ℝ) := by positivity
  have hquot : (1 : ℝ) ≤ (1 + N : ℝ) / (1 + vecDf docs w : ℝ) :=
    (one_le_div hden).mpr (by linarith)
  have hlog : (0 : ℝ) ≤ Real.log ((1 + N : ℝ) / (1 + vecDf docs w : ℝ)) :=
    Real.log_nonneg hquot
  linarith

/-- Helper for C4: a document's TF-IDF row has norm zero exactly when the
document has no words. -/
theorem b_len_eq_zero_iff {N : ℕ} (docs : Fin N → List String) (d : Fin N) :
    b_len docs d = 0 ↔ docs d = [] := by
  unfold b_len
  have hnn : (0 : ℝ) ≤ ∑ w ∈ vocab docs, (tfidfRow docs d w) ^ 2 :=
    Finset.sum_nonneg fun w _ => sq_nonneg _
  rw [Real.sqrt_eq_zero']
  constructor
  · intro hle
    have hsum : ∑ w ∈ vocab docs, (tfidfRow docs d w) ^ 2 = 0 := le_antisymm hle hnn
    have hall := (Finset.sum_eq_zero_iff_of_nonneg fun w _ => sq_nonneg _).mp hsum
    by_contra hne
    obtain ⟨w, hw⟩ := List.exists_mem_of_ne_nil (docs d) hne
    have hwv : w ∈ vocab docs := by
      unfold vocab
      exact Finset.mem_biUnion.mpr ⟨d, Finset.mem_univ d, List.mem_toFinset.mpr hw⟩
    have hz := hall w hwv
    have hrow : tfidfRow docs d w = 0 := by
      have := sq_eq_zero_iff.mp hz
      exact this
    unfold tfidfRow at hrow
    rcases mul_eq_zero.mp hrow with hc | hi
    · have hcnt : 0 < (docs d).count w := List.count_pos_iff.mpr hw
      have : ((docs d).count w : ℝ) ≠ 0 := by positivity
      exact this hc
    · exact absurd hi (smoothIdf_pos docs w).ne'
  · intro hd
    have : ∀ w ∈ vocab docs, (tfidfRow docs d w) ^ 2 = 0 := by
      intro w _
      unfold tfidfRow
      simp [hd]
    rw [Finset.sum_eq_zero this]

/-- C4: the corpus-wide cosine-similarity denominator
`a_len * b_len` (with `a_len` the norm of message 0's TF-IDF row) is zero
for exactly those documents with no words after preprocessing, and is
strictly positive for every document containing at least one word, given
that message 0 itself has at least one word. -/
theorem cosine_denominator_zero_iff {N : ℕ} (docs : Fin (N + 1) → List String)
    (h0 : docs 0 ≠ []) (dd : Fin (N + 1)) :
    (b_len docs 0 * b_len docs dd = 0 ↔ docs dd = []) ∧
    (docs dd ≠ [] → 0 < b_len docs 0 * b_len docs dd) := by
  have ha : b_len docs 0 ≠ 0 := fun h => h0 ((b_len_eq_zero_iff docs 0).mp h)
  have hann : 0 ≤ b_len docs 0 := Real.sqrt_nonneg _
  have hbnn : 0 ≤ b_len docs dd := Real.sqrt_nonneg _
  constructor
  · constructor
    · intro h
      rcases mul_eq_zero.mp h with h | h
      · exact absurd h ha
      · exact (b_len_eq_zero_iff docs dd).mp h
    · intro h
      rw [(b_len_eq_zero_iff docs dd).mpr h, mul_zero]
  · intro hne
    have hb : b_len docs dd ≠ 0 := fun h => hne ((b_len_eq_zero_iff docs dd).mp h)
    exact mul_pos (lt_of_le_of_ne hann (Ne.symm ha)) (lt_of_le_of_ne hbnn (Ne.symm hb))

/-- Witness for `cosine_denominator_zero_iff` on a two-document corpus
whose second document is empty. -/
theorem cosine_denominator_zero_iff_witness :
    (![["hello"], []] : Fin 2 → List String) 0 ≠ [] ∧
    ((b_len (![["hello"], []] : Fin 2 → List String) 0 *
          b_len (![["hello"], []] : Fin 2 → List String) 1 = 0 ↔
        (![["hello"], []] : Fin 2 → List String) 1 = []) ∧
      ((![["hello"], []] : Fin 2 → List String) 1 ≠ [] →
        0 < b_len (![["hello"], []] : Fin 2 → List String) 0 *
          b_len (![["hello"], []] : Fin 2 → List String) 1)) :=
  ⟨by decide, cosine_denominator_zero_iff (![["hello"], []] : Fin 2 → List String) (by decide) 1⟩

/-- C9: for a vector of nonzero norm, the computed cosine similarity with
itself is exactly 1, and against any vector of nonzero norm it is at most
its self-similarity 1; hence, sorting the similarities to message 0 in
descending order, message 0 itself attains the maximum value 1. -/
theorem cosSim_self_eq_one_and_max {n : ℕ} (a : Fin n → ℝ) (ha : vlen a ≠ 0) :
    cosSim a a = 1 ∧ ∀ b : Fin n → ℝ, vlen b ≠ 0 → cosSim a b ≤ cosSim a a := by
  have hsq : ∀ c : Fin n → ℝ, (0 : ℝ) ≤ ∑ j, c j ^ 2 := fun c =>
    Finset.sum_nonneg fun j _ => sq_nonneg _
  have hdot : dot a a = ∑ j, a j ^ 2 := by
    unfold dot
    simp [pow_two]
  have hlen : vlen a * vlen a = ∑ j, a j ^ 2 := by
    unfold vlen
    exact Real.mul_self_sqrt (hsq a)
  have hS : (∑ j, a j ^ 2) ≠ 0 := by
    intro h
    apply ha
    unfold vlen
    rw [h, Real.sqrt_zero]
  have hself : cosSim a a = 1 := by
    unfold cosSim
    rw [hdot, hlen]
    exact div_self hS
  refine ⟨hself, ?_⟩
  intro b hb
  rw [hself]
  have hapos : 0 < vlen a := lt_of_le_of_ne (Real.sqrt_nonneg _) (Ne.symm ha)
  have hbpos : 0 < vlen b := lt_of_le_of_ne (Real.sqrt_nonneg _) (Ne.symm hb)
  have hcs : dot a b ≤ vlen a * vlen b := by
    unfold dot vlen
    exact Real.sum_mul_le_sqrt_mul_sqrt Finset.univ a b
  unfold cosSim
  exact (div_le_one (mul_pos hapos hbpos)).mpr hcs

/-- Witness for `cosSim_self_eq_one_and_max` at the one-dimensional
vector with single entry 1. -/
theorem cosSim_self_eq_one_and_max_witness :
    vlen (fun _ : Fin 1 => (1 : ℝ)) ≠ 0 ∧
    (cosSim (fun _ : Fin 1 => (1 : ℝ)) (fun _ : Fin 1 => (1 : ℝ)) = 1 ∧
      ∀ b : Fin 1 → ℝ, vlen b ≠ 0 →
        cosSim (fun _ : Fin 1 => (1 : ℝ)) b ≤
          cosSim (fun _ : Fin 1 => (1 : ℝ)) (fun _ : Fin 1 => (1 : ℝ))) := by
  have h1 : vlen (fun _ : Fin 1 => (1 : ℝ)) ≠ 0 := by
    unfold vlen
    simp
  exact ⟨h1, cosSim_self_eq_one_and_max (fun _ : Fin 1 => (1 : ℝ)) h1⟩

/-- C7: when the table's index labels are pairwise distinct and `train` is
a subset of the table's rows (a random half sampled without replacement),
`train` and `val = table.drop(train.index)` partition the table: they are
disjoint, their union is the whole table, and every row of the table
belongs to exactly one of them. -/
theorem train_val_partition {L R : Type} [DecidableEq L]
    (table train : List (L × R))
    (htr : train.Subperm table)
    (hnd : (table.map Prod.fst).Nodup) :
    (∀ r, ¬(r ∈ train ∧ r ∈ dropIndex table train)) ∧
    (∀ r, r ∈ table ↔ r ∈ train ∨ r ∈ dropIndex table train) ∧
    (∀ r ∈ table, (r ∈ train ∧ r ∉ dropIndex table train) ∨
      (r ∉ train ∧ r ∈ dropIndex table train)) := by
  have hmem_val : ∀ r, r ∈ dropIndex table train ↔
      r ∈ table ∧ r.1 ∉ train.map Prod.fst := by
    intro r
    unfold dropIndex
    simp [List.mem_filter]
  have hdisj : ∀ r, ¬(r ∈ train ∧ r ∈ dropIndex table train) := by
    rintro r ⟨h1, h2⟩
    exact ((hmem_val r).mp h2).2 (List.mem_map.mpr ⟨r, h1, rfl⟩)
  have hcover : ∀ r, r ∈ table ↔ r ∈ train ∨ r ∈ dropIndex table train := by
    intro r
    constructor
    · intro hr
      by_cases hl : r.1 ∈ train.map Prod.fst
      · left
        obtain ⟨s, hs, hse⟩ := List.mem_map.mp hl
        have hst : s ∈ table := htr.subset hs
        have hsr : s = r := List.inj_on_of_nodup_map hnd hst hr hse
        exact hsr ▸ hs
      · right
        exact (hmem_val r).mpr ⟨hr, hl⟩
    · intro hr
      rcases hr with hr | hr
      · exact htr.subset hr
      · exact ((hmem_val r).mp hr).1
  refine ⟨hdisj, hcover, ?_⟩
  intro r hr
  by_cases ht : r ∈ train
  · exact Or.inl ⟨ht, fun hv => hdisj r ⟨ht, hv⟩⟩
  · rcases (hcover r).mp hr with h | h
    · exact absurd h ht
    · exact Or.inr ⟨ht, h⟩

/-- Witness for `train_val_partition` on a concrete two-row table whose
sampled half is its second row. -/
theorem train_val_partition_witness :
    ([((1 : ℕ), "b")] : List (ℕ × String)).Subperm [(0, "a"), (1, "b")] ∧
    (([((0 : ℕ), "a"), (1, "b")] : List (ℕ × String)).map Prod.fst).Nodup ∧
    (∀ r, r ∈ ([((0 : ℕ), "a"), (1, "b")] : List (ℕ × String)) ↔
      r ∈ ([((1 : ℕ), "b")] : List (ℕ × String)) ∨
        r ∈ dropIndex [((0 : ℕ), "a"), (1, "b")] [((1 : ℕ), "b")]) := by
  have hsub : ([((1 : ℕ), "b")] : List (ℕ × String)).Subperm [(0, "a"), (1, "b")] :=
    (List.sublist_cons_self ((0 : ℕ), "a") [((1 : ℕ), "b")]).subperm
  exact ⟨hsub, by decide,
    (train_val_partition [((0 : ℕ), "a"), (1, "b")] [((1 : ℕ), "b")] hsub (by decide)).2.1⟩

/-- C2 (the code bug made explicit): the result of `get_val_error` does
not depend on its `X_train` and `X_val` parameters at all — the body
overwrites both with the transforms of the module-level globals
`X_train_dict` and `X_val_dict` — so it is not a function of its four
arguments, and calling it with the halves swapped does not evaluate a
model trained on the second half. -/
theorem get_val_error_ignores_feature_arguments {d : ℕ}
    (X_train_dict X_val_dict : List (Fin d → ℝ)) (y_train y_val : List ℝ)
    (Xa Xb Xa2 Xb2 : List (Fin d → ℝ)) :
    get_val_error X_train_dict X_val_dict Xa y_train Xb y_val =
      get_val_error X_train_dict X_val_dict Xa2 y_train Xb2 y_val := rfl

/-- C6 counterexample: evaluated at a concrete input, the bigram helper
has a fixed output determined by the input word list alone; it is a
deterministic, self-contained pure function, contradicting the claim that
the repository has no such component. -/
theorem get_bigrams_deterministic_counterexample :
    get_bigrams (["the", "dog", "bit"] : List String) =
      [("the", "dog"), ("dog", "bit")] := by
  decide

/-- Helper for C6: `get_bigrams` agrees with the structural recursion
`consecPairs`, so its output is determined by its input list alone. -/
theorem get_bigrams_eq_consecPairs {α : Type} (l : List α) :
    get_bigrams l = consecPairs l := by
  unfold get_bigrams
  induction l with
  | nil => rfl
  | cons a t ih =>
    cases t with
    | nil => rfl
    | cons b r =>
      show ((a :: b :: r).dropLast).zip (b :: r) = (a, b) :: consecPairs (b :: r)
      rw [List.dropLast_cons₂, List.zip_cons_cons, ← ih]
      rfl

/-- Helper for C6: with at least 30 training rows and a constant label
vector, the 30-nearest-neighbors helper returns that constant. -/
theorem get_30NN_prediction_const {n d : ℕ} (hn : 30 ≤ n) (X : Fin n → Fin d → ℚ)
    (x : Fin d → ℚ) (c : ℚ) :
    get_30NN_prediction X (fun _ => c) x = c := by
  unfold get_30NN_prediction i_nearest
  have hlen : (inds_sorted X x).length = n := by
    unfold inds_sorted
    rw [(List.mergeSort_perm _ _).length_eq, List.length_finRange]
  have htake : ((inds_sorted X x).take 30).length = 30 := by
    rw [List.length_take, hlen]
    omega
  rw [List.map_const', List.sum_replicate, htake]
  rw [nsmul_eq_mul]
  exact mul_div_cancel_left₀ c (by norm_num)

/-- C6 amended: the two helper functions differ in kind.  `get_bigrams` is
a deterministic pure function of its input word list alone (it equals the
structural recursion `consecPairs`), while `get_30NN_prediction` reads
the enclosing training data: with the training set made an explicit
argument, two different label vectors give different outputs on the same
features and query point. -/
theorem helpers_purity_amended :
    (∀ l : List String, get_bigrams l = consecPairs l) ∧
    (∃ (X : Fin 30 → Fin 1 → ℚ) (y₁ y₂ : Fin 30 → ℚ) (x : Fin 1 → ℚ),
      get_30NN_prediction X y₁ x ≠ get_30NN_prediction X y₂ x) := by
  refine ⟨fun l => get_bigrams_eq_consecPairs l, ?_⟩
  refine ⟨fun _ _ => 0, fun _ => 0, fun _ => 1, fun _ => 0, ?_⟩
  rw [get_30NN_prediction_const (by norm_num) _ _ 0,
    get_30NN_prediction_const (by norm_num) _ _ 1]
  norm_num

/-- Helper for C1: two equally sized index sets that are both strictly
separated from their complements by the same distance function are
equal. -/
theorem nearest_set_unique {n : ℕ} (k : Fin n → ℝ) (S T : Finset (Fin n))
    (hcard : S.card = T.card)
    (hS : ∀ i ∈ S, ∀ j ∉ S, k i < k j)
    (hT : ∀ i ∈ T, ∀ j ∉ T, k i < k j) : T = S := by
  by_contra hne
  have hTS : ¬T ⊆ S := fun hsub =>
    hne (Finset.eq_of_subset_of_card_le hsub (le_of_eq hcard))
  have hST : ¬S ⊆ T := fun hsub =>
    hne ((Finset.eq_of_subset_of_card_le hsub (le_of_eq hcard.symm)).symm)
  obtain ⟨a, haT, haS⟩ := Finset.not_subset.mp hTS
  obtain ⟨b, hbS, hbT⟩ := Finset.not_subset.mp hST
  exact lt_asymm (hS b hbS a haS) (hT a haT b hbT)

/-- C1: with at least 30 training rows and pairwise-distinct distances to
the query point, `get_30NN_prediction` returns the mean of the labels of
the unique set of 30 training points with the smallest Euclidean distance
to the query point: the 30 indices it selects by sorting the squared
distances are strictly closer in Euclidean distance than every other
index (the square root being monotone), and any 30-element index set with
that property is this one. -/
theorem get_30NN_prediction_spec {n d : ℕ} (X : Fin n → Fin d → ℚ) (y : Fin n → ℚ)
    (x : Fin d → ℚ) (hn : 30 ≤ n)
    (hdist : ∀ i j : Fin n, i ≠ j → sqDist X x i ≠ sqDist X x j) :
    ∃ S : Finset (Fin n),
      S.card = 30 ∧
      (∀ i ∈ S, ∀ j ∉ S, euclDist X x i < euclDist X x j) ∧
      get_30NN_prediction X y x = (∑ i ∈ S, y i) / 30 ∧
      ∀ T : Finset (Fin n), T.card = 30 →
        (∀ i ∈ T, ∀ j ∉ T, euclDist X x i < euclDist X x j) → T = S := by
  have hperm : (inds_sorted X x).Perm (List.finRange n) := List.mergeSort_perm _ _
  have hlen : (inds_sorted X x).length = n := by
    rw [hperm.length_eq, List.length_finRange]
  have hnodup : (inds_sorted X x).Nodup := hperm.nodup_iff.mpr (List.nodup_finRange n)
  have hsorted : (inds_sorted X x).Pairwise fun a b => distLe X x a b = true :=
    List.sorted_mergeSort
      (fun a b c hab hbc => by
        simp only [distLe, decide_eq_true_eq] at hab hbc ⊢
        exact le_trans hab hbc)
      (fun a b => by
        simp only [distLe, Bool.or_eq_true, decide_eq_true_eq]
        exact le_total _ _)
      (List.finRange n)
  have htklen : ((inds_sorted X x).take 30).length = 30 := by
    rw [List.length_take, hlen]
    omega
  have htknodup : ((inds_sorted X x).take 30).Nodup :=
    (List.take_sublist 30 (inds_sorted X x)).nodup hnodup
  have happ : (inds_sorted X x).take 30 ++ (inds_sorted X x).drop 30 = inds_sorted X x :=
    List.take_append_drop 30 (inds_sorted X x)
  have hsep : ∀ a ∈ (inds_sorted X x).take 30, ∀ b ∈ (inds_sorted X x).drop 30,
      distLe X x a b = true := by
    have hpw : ((inds_sorted X x).take 30 ++ (inds_sorted X x).drop 30).Pairwise
        fun a b => distLe X x a b = true := by
      rw [happ]
      exact hsorted
    exact (List.pairwise_append.mp hpw).2.2
  have hdisjoint : ((inds_sorted X x).take 30).Disjoint ((inds_sorted X x).drop 30) := by
    apply List.disjoint_of_nodup_append
    rw [happ]
    exact hnodup
  have hseplt : ∀ i ∈ (inds_sorted X x).take 30, ∀ j ∉ ((inds_sorted X x).take 30).toFinset,
      euclDist X x i < euclDist X x j := by
    intro i hi j hj
    rw [List.mem_toFinset] at hj
    have hjL : j ∈ inds_sorted X x := hperm.mem_iff.mpr (List.mem_finRange j)
    rw [← happ] at hjL
    have hjdrop : j ∈ (inds_sorted X x).drop 30 := by
      rcases List.mem_append.mp hjL with h | h
      · exact absurd h hj
      · exact h
    have hne : i ≠ j := fun heq => hdisjoint hi (heq ▸ hjdrop)
    have hle : sqDist X x i ≤ sqDist X x j := by
      have h := hsep i hi j hjdrop
      simpa [distLe] using h
    have hlt : sqDist X x i < sqDist X x j := lt_of_le_of_ne hle (hdist i j hne)
    unfold euclDist
    have h0 : (0 : ℝ) ≤ (sqDist X x i : ℝ) := by
      have hq : (0 : ℚ) ≤ sqDist X x i := Finset.sum_nonneg fun t _ => sq_nonneg _
      exact_mod_cast hq
    exact Real.sqrt_lt_sqrt h0 (by exact_mod_cast hlt)
  have hcard : ((inds_sorted X x).take 30).toFinset.card = 30 := by
    rw [List.toFinset_card_of_nodup htknodup, htklen]
  have hsepF : ∀ i ∈ ((inds_sorted X x).take 30).toFinset,
      ∀ j ∉ ((inds_sorted X x).take 30).toFinset, euclDist X x i < euclDist X x j := by
    intro i hi j hj
    exact hseplt i (List.mem_toFinset.mp hi) j hj
  refine ⟨((inds_sorted X x).take 30).toFinset, hcard, hsepF, ?_, ?_⟩
  · unfold get_30NN_prediction i_nearest
    rw [← List.sum_toFinset y htknodup, htklen]
    norm_num
  · intro T hTcard hTsep
    exact nearest_set_unique (euclDist X x) ((inds_sorted X x).take 30).toFinset T
      (by rw [hcard, hTcard]) hsepF hTsep

/-- Helper for the C1 witness: on the concrete one-feature training set
whose row `i` is `i`, the squared distance to the query point `0` is
`i²`. -/
theorem sqDist_witness_eval (i : Fin 30) :
    sqDist (fun (i : Fin 30) (_ : Fin 1) => (i : ℚ)) (fun _ => 0) i = (i : ℚ) ^ 2 := by
  unfold sqDist
  simp

/-- Helper for the C1 witness: the squared distances of the concrete
training set are pairwise distinct. -/
theorem sqDist_witness_distinct : ∀ i j : Fin 30, i ≠ j →
    sqDist (fun (i : Fin 30) (_ : Fin 1) => (i : ℚ)) (fun _ => 0) i ≠
      sqDist (fun (i : Fin 30) (_ : Fin 1) => (i : ℚ)) (fun _ => 0) j := by
  intro i j hne h
  rw [sqDist_witness_eval, sqDist_witness_eval] at h
  have hq : (i : ℚ) = (j : ℚ) := by
    have h1 : (0 : ℚ) ≤ (i : ℚ) := by positivity
    have h2 : (0 : ℚ) ≤ (j : ℚ) := by positivity
    nlinarith
  exact hne (Fin.ext (by exact_mod_cast hq))

/-- Witness for `get_30NN_prediction_spec` on the concrete 30-row,
one-feature training set whose row `i` is `i`, with query point `0`. -/
theorem get_30NN_prediction_spec_witness :
    30 ≤ 30 ∧
    (∀ i j : Fin 30, i ≠ j →
      sqDist (fun (i : Fin 30) (_ : Fin 1) => (i : ℚ)) (fun _ => 0) i ≠
        sqDist (fun (i : Fin 30) (_ : Fin 1) => (i : ℚ)) (fun _ => 0) j) ∧
    ∃ S : Finset (Fin 30),
      S.card = 30 ∧
      (∀ i ∈ S, ∀ j ∉ S,
        euclDist (fun (i : Fin 30) (_ : Fin 1) => (i : ℚ)) (fun _ => 0) i <
          euclDist (fun (i : Fin 30) (_ : Fin 1) => (i : ℚ)) (fun _ => 0) j) ∧
      get_30NN_prediction (fun (i : Fin 30) (_ : Fin 1) => (i : ℚ)) (fun i => (i : ℚ))
          (fun _ => 0) = (∑ i ∈ S, (i : ℚ)) / 30 ∧
      ∀ T : Finset (Fin 30), T.card = 30 →
        (∀ i ∈ T, ∀ j ∉ T,
          euclDist (fun (i : Fin 30) (_ : Fin 1) => (i : ℚ)) (fun _ => 0) i <
            euclDist (fun (i : Fin 30) (_ : Fin 1) => (i : ℚ)) (fun _ => 0) j) → T = S :=
  ⟨by norm_num, sqDist_witness_distinct,
    get_30NN_prediction_spec (fun (i : Fin 30) (_ : Fin 1) => (i : ℚ)) (fun i => (i : ℚ))
      (fun _ => 0) (by norm_num) sqDist_witness_distinct⟩
